import Mathlib

/-!
Verification development for the wos-plus Game State Correlation Engine.

Shallow embedding of the TypeScript sources:
  * `src/scripts/wos-words.ts` (lexicon / candidate search, missing-word inference)
  * the companion module holding `groupConsecutiveEmptySlots`,
    `createGroupWithBounds`, `wordFitsAlphabetically`, `findSlotMatchedMissedWords`
  * `src/scripts/db-service.ts` (`saveBoard`)
  * `src/scripts/wos-plus-main.ts` (`GameSpectator`)

Modelling conventions:
  * a TS `string` is a `List Char` (abbreviated `Str`);
  * a TS `string[]` is a `List Str`;
  * JS `Map` objects are association lists, looked up from the most recent
    insertion first;
  * JS `Array.prototype.sort` (stable, consistent comparator) is modelled by
    `List.insertionSort`, which is stable;
  * DOM side effects that feed back into the logic (the `hidden-letter`,
    `fake-letter`, `letters` texts) are fields of the state record; purely
    presentational DOM updates are not modelled;
  * `localeCompare` is modelled as code-point lexicographic comparison
    (`lexCompareCh`), adequate for the lowercase alphabetic strings the
    engine compares.
-/

/-- TS strings are modelled as lists of characters. -/
abbrev Str := List Char

/-- Model of `s.toLowerCase()` : character-wise ASCII lowering. -/
def toLowerStr (s : Str) : Str := s.map Char.toLower

/-- Model of `s.toUpperCase()` : character-wise ASCII raising. -/
def toUpperStr (s : Str) : Str := s.map Char.toUpper

/-- Model of `s.replace(c, '')` for a single-character pattern: remove the first
occurrence of `c`, if any. -/
def removeFirst (c : Char) : Str → Str
  | [] => []
  | x :: xs => if x = c then xs else x :: removeFirst c xs

/-- Worker for `dedupFirst`: `seen` holds the values already emitted. -/
def dedupFirstGo {α : Type} [DecidableEq α] : List α → List α → List α
  | [], _ => []
  | x :: xs, seen => if x ∈ seen then dedupFirstGo xs seen else x :: dedupFirstGo xs (x :: seen)

/-- Model of `Array.from(new Set(l))` : deduplicate keeping first occurrences, in order.
Also models JS `Map` key iteration order (insertion order). -/
def dedupFirst {α : Type} [DecidableEq α] (l : List α) : List α := dedupFirstGo l []

/-- Model of `s.split('')` : the characters of a string, as one-character strings. -/
def splitChars (s : Str) : List Str := s.map (fun c => [c])

/-- Model of `parts.join('')`. -/
def joinAll (parts : List Str) : Str := parts.flatten

/-- Model of `parts.join(' ')` : join with single-space separators. -/
def joinSpace : List Str → Str
  | [] => []
  | [x] => x
  | x :: y :: xs => x ++ ' ' :: joinSpace (y :: xs)

/-- Model of `s.split(' ')` : split on single spaces (JS semantics: `''.split(' ') = ['']`). -/
def splitOnSpaceAux : Str → Str → List Str
  | [], acc => [acc.reverse]
  | c :: cs, acc => if c = ' ' then acc.reverse :: splitOnSpaceAux cs [] else splitOnSpaceAux cs (c :: acc)

def splitOnSpace (s : Str) : List Str := splitOnSpaceAux s []

/-- Code-point lexicographic comparison of character lists; model of
`a.localeCompare(b)` (sign only) for the strings the engine compares. -/
def lexCompareCh : Str → Str → Ordering
  | [], [] => Ordering.eq
  | [], _ :: _ => Ordering.lt
  | _ :: _, [] => Ordering.gt
  | a :: as, b :: bs => if a < b then Ordering.lt else if b < a then Ordering.gt else lexCompareCh as bs

/-!  ## wos-words.ts : candidate search

`findWosWordsByLetters` builds a letter-frequency map of the (lowercased)
input and, for each dictionary word, consumes one unit per character of the
(lowercased) word, rejecting the word when a character is unavailable.
Consuming from a frequency map is modelled as erasing one occurrence from the
character multiset. -/

/-- The per-word availability check of `findWosWordsByLetters`: walk the word,
failing when the next character has no remaining occurrence in `letters`,
otherwise consuming one occurrence. -/
def canFormWord : Str → Str → Bool
  | [], _ => true
  | c :: rest, letters =>
    if 0 < letters.count c then canFormWord rest (letters.erase c) else false

/-- Model of `findWosWordsByLetters(letters, length?)`.  The loaded lexicon
(`wosDictionary`, a module-level variable in the source) is passed explicitly
as `dict`.  Note the length filter keeps words with length `>= length`
(the `exactLength` branch uses `>=`, not `===`). -/
def findWosWordsByLetters (dict : List Str) (letters : Str) (length? : Option Nat) : List Str :=
  let lettersLower : Str := toLowerStr letters
  let formable : List Str := dict.filter (fun word => canFormWord (toLowerStr word) lettersLower)
  let lenFiltered : List Str :=
    match length? with
    | some n => formable.filter (fun word => decide (n ≤ word.length))
    | none => formable.filter (fun word => decide (3 < word.length))
  let deduped := dedupFirst (lenFiltered.map toLowerStr)
  List.insertionSort (fun a b => b.length ≤ a.length) deduped

/-- Model of `findMissingWordsFromList(knownWords, dictionaryWords)`. -/
def findMissingWordsFromList (knownWords dictionaryWords : List Str) : List Str :=
  dictionaryWords.filter (fun word => decide (toLowerStr word ∉ knownWords.map toLowerStr))

/-- Model of `findAllMissingWords(knownWords, knownLetters, minLength)`. -/
def findAllMissingWords (dict : List Str) (knownWords : List Str) (knownLetters : Str)
    (minLength : Nat) : List Str :=
  let possibleWords := findWosWordsByLetters dict knownLetters (some minLength)
  let tempMissingWords := findMissingWordsFromList knownWords possibleWords
  tempMissingWords.filter (fun word => decide (minLength ≤ word.length))

/-! ## Slots and the boundary grouper -/

/-- A board slot (`Slots` in wos-plus-main.ts / `SlotInfo` in the grouper
module / `Slot` in db-service.ts; the fields below cover all of them).
`letters` is a TS `string[]`; `user` is optional. -/
structure Slot where
  letters : List Str
  word : Str
  user : Option Str
  hitMax : Bool
  index : Nat
  length : Nat
deriving DecidableEq, Repr

/-- JS truthiness of the optional `user` field (`undefined`/`null` and the
empty string are falsy). -/
def userTruthy : Option Str → Bool
  | none => false
  | some u => !u.isEmpty

/-- The `{index, length}` projections of the slots without a (truthy) user,
in order (`slots.filter(slot => !slot.user).map(...)`). -/
def emptySlotInfos (slots : List Slot) : List (Nat × Nat) :=
  (slots.filter (fun s => !userTruthy s.user)).map (fun s => (s.index, s.length))

/-- Model of `EmptySlotGroup` of the grouper module. -/
structure EmptySlotGroup where
  slots : List (Nat × Nat)
  lowerBoundIndex : Option Nat
  upperBoundIndex : Option Nat
deriving DecidableEq, Repr

/-- The `slotByIndex` JS `Map` built by `createGroupWithBounds`: insertion in
list order with overwriting, so lookup returns the LAST slot carrying the
index. -/
def lookupByIndex (slots : List Slot) (i : Nat) : Option Slot :=
  slots.reverse.find? (fun s => s.index = i)

/-- Whether the `slotByIndex` map holds a filled (truthy-user) slot at `i`. -/
def filledAt (slots : List Slot) (i : Nat) : Bool :=
  match lookupByIndex slots i with
  | some s => userTruthy s.user
  | none => false

/-- The backward scan of `createGroupWithBounds`
(`for (let i = firstIndex - 1; i >= 0; i--)`), started at `i`. -/
def scanDown (slots : List Slot) : Nat → Option Nat
  | 0 => if filledAt slots 0 then some 0 else none
  | i + 1 => if filledAt slots (i + 1) then some (i + 1) else scanDown slots i

/-- Model of `Math.max(...allSlots.map(s => s.index))`.  (The fold seed 0 agrees with
JS on the nonempty lists this is applied to, since indices are naturals.) -/
def maxIndex (slots : List Slot) : Nat :=
  (slots.map (fun s => s.index)).foldl max 0

/-- Worker for `scanUp`; `fuel` is the number of loop iterations left
(`maxI + 1 - i`), making the recursion structural. -/
def scanUpAux (slots : List Slot) : Nat → Nat → Option Nat
  | 0, _ => none
  | fuel + 1, i => if filledAt slots i then some i else scanUpAux slots fuel (i + 1)

/-- The forward scan of `createGroupWithBounds`
(`for (let i = lastIndex + 1; i <= maxIndex; i++)`). -/
def scanUp (slots : List Slot) (maxI : Nat) (i : Nat) : Option Nat :=
  scanUpAux slots (maxI + 1 - i) i

/-- Model of `createGroupWithBounds(groupSlots, allSlots)`.  The source reads
`groupSlots[0]` and `groupSlots[groupSlots.length - 1]`; all call sites pass a
nonempty `groupSlots`, and the `getD 0` default is never exercised there. -/
def createGroupWithBounds (groupSlots : List (Nat × Nat)) (allSlots : List Slot) :
    EmptySlotGroup :=
  let firstIndex := ((groupSlots.head?).map Prod.fst).getD 0
  let lastIndex := ((groupSlots.getLast?).map Prod.fst).getD 0
  let lowerBoundIndex : Option Nat :=
    match firstIndex with
    | 0 => none
    | i + 1 => scanDown allSlots i
  let upperBoundIndex : Option Nat := scanUp allSlots (maxIndex allSlots) (lastIndex + 1)
  ⟨groupSlots, lowerBoundIndex, upperBoundIndex⟩

/-- The accumulation loop of `groupConsecutiveEmptySlots`: `cur` is the
current run, `prev` the previously processed empty-slot info. -/
def groupRunsAux (allSlots : List Slot) (cur : List (Nat × Nat)) (prev : Nat × Nat) :
    List (Nat × Nat) → List EmptySlotGroup
  | [] => [createGroupWithBounds cur allSlots]
  | y :: ys =>
    if y.1 = prev.1 + 1 then groupRunsAux allSlots (cur ++ [y]) y ys
    else createGroupWithBounds cur allSlots :: groupRunsAux allSlots [y] y ys

/-- Model of `groupConsecutiveEmptySlots(slots)`. -/
def groupConsecutiveEmptySlots (slots : List Slot) : List EmptySlotGroup :=
  match emptySlotInfos slots with
  | [] => []
  | x :: xs => groupRunsAux slots [x] x xs

/-- Model of `wordFitsAlphabetically(word, lowerBound, upperBound)`:
false when `lowerBound` is non-null and `word.toLowerCase()` compares `<= 0`
against it; false when `upperBound` is non-null and the comparison is `>= 0`;
true otherwise. -/
def wordFitsAlphabetically (word : Str) (lowerBound upperBound : Option Str) : Bool :=
  let wordLower := toLowerStr word
  let lowerReturnsFalse : Bool :=
    match lowerBound with
    | some lb => lexCompareCh wordLower (toLowerStr lb) != Ordering.gt
    | none => false
  let upperReturnsFalse : Bool :=
    match upperBound with
    | some ub => lexCompareCh wordLower (toLowerStr ub) != Ordering.lt
    | none => false
  if lowerReturnsFalse then false
  else if upperReturnsFalse then false
  else true

/-! ## db-service.ts : saveBoard -/

/-- Result of `saveBoard`: either it returns early without issuing any network
request (`rejected`), or it reaches the `fetch` with the cleaned board id and
the slots (`requested`). -/
inductive SaveResult where
  | rejected : SaveResult
  | requested : Str → List Slot → SaveResult
deriving DecidableEq, Repr

/-- Model of `boardId.replace(/\s+/g, "").toUpperCase()`. -/
def cleanBoardId (boardId : Str) : Str :=
  toUpperStr (boardId.filter (fun c => !c.isWhitespace))

/-- The `/^[A-Z]+$/` test: nonempty and uppercase-alphabetic only. -/
def upperAlphaOnly (s : Str) : Bool :=
  !s.isEmpty && s.all (fun c => 'A' ≤ c && c ≤ 'Z')

/-- A slot failing the completeness check of `saveBoard`
(`slot.letters.includes('.') || slot.letters.includes('?') || slot.word.length === 0`). -/
def slotIncomplete (slot : Slot) : Bool :=
  decide (['.'] ∈ slot.letters) || decide (['?'] ∈ slot.letters) || slot.word.isEmpty

/-- Model of `saveBoard(boardId, slots)`.  The structural `isValidSlots` check of the
source (field types) always passes in this typed model. -/
def saveBoard (boardId : Str) (slots : List Slot) : SaveResult :=
  if boardId.length = 0 then SaveResult.rejected
  else if !upperAlphaOnly (cleanBoardId boardId) then SaveResult.rejected
  else if (cleanBoardId boardId).length < 4 || 20 < (cleanBoardId boardId).length then
    SaveResult.rejected
  else if slots.isEmpty then SaveResult.rejected
  else if slots.any slotIncomplete then SaveResult.rejected
  else SaveResult.requested (cleanBoardId boardId) slots

/-! ## wos-plus-main.ts : GameSpectator -/

/-- One secondary-stream (Twitch chat) entry. -/
structure ChatMsg where
  username : Str
  message : Str
  timestamp : Nat
deriving DecidableEq, Repr

/-- The mutable `GameSpectator` state relevant to the correct-guess,
level-results and missing-word logic.  `hiddenLetterText`, `fakeLetterText`,
`lettersText`, `lettersLabel` are the DOM texts the logic reads or writes
(`#hidden-letter`, `#fake-letter`, `#letters`, `#letters-label`). -/
structure GS where
  lastTwitchMessage : Option ChatMsg
  twitchChatLog : List (Str × ChatMsg)
  currentLevel : Nat
  dailyBest : Nat
  dailyClears : Nat
  currentLevelBigWord : Str
  currentLevelCorrectWords : List Str
  currentLevelLetters : List Str
  currentLevelHiddenLetters : List Str
  currentLevelFakeLetters : List Str
  currentLevelSlots : List Slot
  hiddenLetterText : Str
  fakeLetterText : Str
  lettersText : Str
  lettersLabel : Str
deriving DecidableEq, Repr

/-- Model of `Map.get` on the chat log (`twitchChatLog.get(lowerUsername)`): the most
recent entry stored under the key.  Insertions are modelled by prepending, so
lookup takes the first hit. -/
def chatLogGet (log : List (Str × ChatMsg)) (username : Str) : Option ChatMsg :=
  (log.find? (fun p => p.1 = username)).map Prod.snd

/-- The sign of a comparator outcome, as `localeCompare` delivers it. -/
def ordSign : Ordering → Int
  | Ordering.lt => -1
  | Ordering.eq => 0
  | Ordering.gt => 1

/-- Model of `word.endsWith('*')`. -/
def endsWithStar (w : Str) : Bool := w.getLast? = some '*'

/-- The comparator of `updateCorrectWordsDisplayed`:
`a.replace('*','')` / `b.replace('*','')` length difference first, then
case-insensitive `localeCompare`, then entries ending in `*` after the others. -/
def codeCmp (a b : Str) : Int :=
  if ((removeFirst '*' a).length : Int) - ((removeFirst '*' b).length : Int) ≠ 0 then
    ((removeFirst '*' a).length : Int) - ((removeFirst '*' b).length : Int)
  else if ordSign (lexCompareCh (toLowerStr (removeFirst '*' a))
      (toLowerStr (removeFirst '*' b))) ≠ 0 then
    ordSign (lexCompareCh (toLowerStr (removeFirst '*' a)) (toLowerStr (removeFirst '*' b)))
  else if endsWithStar a ≠ endsWithStar b then (if endsWithStar a then 1 else -1)
  else 0

/-- The comparator as a relation (`codeCmp a b <= 0`), the order a stable
JS sort establishes. -/
def wordLe (a b : Str) : Prop := codeCmp a b ≤ 0

instance : DecidableRel wordLe := fun a b => inferInstanceAs (Decidable (codeCmp a b ≤ 0))

/-- Model of `[...this.currentLevelCorrectWords].sort(comparator)`. -/
def sortWords (l : List Str) : List Str := List.insertionSort wordLe l

/-- Model of `updateCorrectWordsDisplayed(word)` on the `currentLevelCorrectWords`
list: push, then replace the list by its sorted copy.  (The rest of the
source function renders the grouped list into the DOM.) -/
def updateCorrectWordsDisplayed (words : List Str) (word : Str) : List Str :=
  sortWords (words ++ [word])

/-- Model of `updateCurrentLevelSlots(username, letters, index, hitMax)`: overwrite the
slot in place when the index is within bounds, otherwise warn and leave the
slots unchanged. -/
def updateCurrentLevelSlots (s : GS) (username : Str) (letters : List Str) (index : Nat)
    (hitMax : Bool) : GS :=
  if index < s.currentLevelSlots.length then
    let newSlot : Slot := ⟨letters, joinAll letters, some username, hitMax, index, letters.length⟩
    { s with currentLevelSlots := s.currentLevelSlots.set index newSlot }
  else s

/-- Model of `calculateHiddenLetters(bigWord)`: letters of the space-separated big word
whose count there exceeds their count in `currentLevelLetters`, first
occurrences in order (a JS `Set`); writes the `#hidden-letter` text when the
result is nonempty and not the whole letter set. -/
def calculateHiddenLetters (s : GS) (bigWord : Str) : GS :=
  let bigWordLetters := (splitOnSpace bigWord).map toLowerStr
  let hiddenLetters := (dedupFirst bigWordLetters).filter
    (fun letter => s.currentLevelLetters.count letter < bigWordLetters.count letter)
  if 0 < hiddenLetters.length ∧ hiddenLetters.length ≠ s.currentLevelLetters.length then
    { s with hiddenLetterText := toUpperStr (joinSpace hiddenLetters) }
  else s

/-- Model of `calculateFakeLetters(bigWord)`: current letters absent from the big word
(placeholder excluded); writes the `#fake-letter` text under the analogous
guard. -/
def calculateFakeLetters (s : GS) (bigWord : Str) : GS :=
  let bigWordLetters := (splitOnSpace bigWord).map toLowerStr
  let fakeLetters := s.currentLevelLetters.filter
    (fun letter => letter ∉ bigWordLetters ∧ letter ≠ ['?'])
  if 0 < fakeLetters.length ∧ fakeLetters.length ≠ s.currentLevelLetters.length then
    { s with fakeLetterText := toUpperStr (joinSpace fakeLetters) }
  else s

/-- The one-character strings of `word.toLowerCase().split('')`, the keys
counted by `wordLetterFrequency`. -/
def wordLetters (w : Str) : List Str := splitChars (toLowerStr w)

/-- The keys of `correctLettersFrequency`, in insertion order: first
occurrences of the letters of the non-`*` correct words, scanned in order. -/
def correctFreqKeys (correctWords : List Str) : List Str :=
  dedupFirst (((correctWords.filter (fun w => decide ('*' ∉ w))).map wordLetters).flatten)

/-- Model of `correctLettersFrequency.get(letter)`: the MAXIMUM frequency of `letter`
within any single correct word not marked with `*` (the per-word counts are
merged with `max`, not summed). -/
def correctLettersFrequency (correctWords : List Str) (letter : Str) : Nat :=
  (correctWords.filter (fun w => decide ('*' ∉ w))).foldl
    (fun m w => max m ((wordLetters w).count letter)) 0

/-- Model of `levelLettersFrequency.get(letter)`: occurrences among the current level
letters, `'?'` excluded. -/
def levelLettersFrequency (levelLetters : List Str) (letter : Str) : Nat :=
  (levelLetters.filter (fun l => l ≠ ['?'])).count letter

/-- Model of `potentialHiddenLetters` as built in `updateGameState`: for each frequency
key, push the letter `count - levelCount` times when its merged (max) count
exceeds its level count. -/
def potentialHiddenLetters (correctWords : List Str) (levelLetters : List Str) : List Str :=
  ((correctFreqKeys correctWords).map (fun letter =>
    List.replicate (correctLettersFrequency correctWords letter
      - levelLettersFrequency levelLetters letter) letter)).flatten

/-- The replacement loop of the inference block: each iteration overwrites the
first remaining `'?'` entry with the next inferred letter. -/
def replaceFirstQs : List Str → List Str → List Str
  | [], _ => []
  | l :: ls, ps =>
    match ps with
    | [] => l :: ls
    | p :: ps' => if l = ['?'] then p :: replaceFirstQs ls ps' else l :: replaceFirstQs ls ps

/-- The hidden-letter inference block at the end of `updateGameState`
(guarded there by `currentLevelCorrectWords.length > 0 && !hitMax`). -/
def applyHiddenInference (s : GS) : GS :=
  let potential := potentialHiddenLetters s.currentLevelCorrectWords s.currentLevelLetters
  if 0 < potential.length then
    if s.hiddenLetterText = [] then
      let s1 := { s with hiddenLetterText := toUpperStr (joinSpace potential) }
      if s1.currentLevelLetters.count ['?'] = 1 then
        let remaining := s1.currentLevelLetters.filter (fun l => l ≠ ['?'])
        { s1 with currentLevelLetters := remaining,
                  currentLevelHiddenLetters := s1.currentLevelHiddenLetters ++ potential,
                  lettersText := toUpperStr (joinSpace remaining) }
      else
        let questionMarksCount := s1.currentLevelLetters.count ['?']
        if potential.length = questionMarksCount then
          let remaining := s1.currentLevelLetters.filter (fun l => l ≠ ['?'])
          { s1 with currentLevelLetters := remaining,
                    currentLevelHiddenLetters := s1.currentLevelHiddenLetters ++ potential,
                    lettersText := toUpperStr (joinSpace remaining) }
        else
          let lettersToReplace := min potential.length questionMarksCount
          { s1 with currentLevelLetters :=
                      replaceFirstQs s1.currentLevelLetters (potential.take lettersToReplace),
                    currentLevelHiddenLetters :=
                      s1.currentLevelHiddenLetters ++ potential.take lettersToReplace }
    else s
  else s

/-- The chat-stream resolution at the top of `updateGameState`: prefer
`lastTwitchMessage` when its author (lowercased) matches and its length equals
the letter count; otherwise the per-user chat-log entry under the same length
constraint; otherwise `none` (the handler warns and returns early). -/
def resolveGuessWord (s : GS) (username : Str) (lettersLen : Nat) : Option Str :=
  let lowerUsername := toLowerStr username
  let fromLast : Option Str :=
    match s.lastTwitchMessage with
    | some m =>
      if toLowerStr m.username = lowerUsername ∧ m.message.length = lettersLen
      then some m.message else none
    | none => none
  match fromLast with
  | some w => some w
  | none =>
    match chatLogGet s.twitchChatLog lowerUsername with
    | some latestMessage =>
      if latestMessage.message.length = lettersLen then some latestMessage.message else none
    | none => none

/-- Model of `word.split('').join(' ').toUpperCase()`. -/
def spacedUpper (w : Str) : Str := toUpperStr (joinSpace (splitChars w))

/-- The `if (hitMax)` block of `updateGameState`: record the big word, switch
the letters display to it, and derive hidden and fake letters from it. -/
def applyBigWordBlock (s : GS) (word : Str) (hitMax : Bool) : GS :=
  if hitMax then
    calculateFakeLetters
      (calculateHiddenLetters
        { s with currentLevelBigWord := spacedUpper word,
                 lettersLabel := ['B','i','g',' ','W','o','r','d',':'],
                 lettersText := spacedUpper word }
        (spacedUpper word))
      (spacedUpper word)
  else s

/-- The guard `currentLevelCorrectWords.length > 0 && !hitMax` around the
hidden-letter inference block of `updateGameState`. -/
def postGuessInference (s : GS) (hitMax : Bool) : GS :=
  if 0 < s.currentLevelCorrectWords.length ∧ hitMax = false then applyHiddenInference s
  else s

/-- The body of `updateGameState` once the guessed word is resolved: append it
to the correct-word list, overwrite the slot, then the big-word block and the
inference block, in source order. -/
def applyResolvedGuess (s : GS) (username : Str) (word : Str) (index : Nat)
    (hitMax : Bool) : GS :=
  postGuessInference
    (applyBigWordBlock
      (updateCurrentLevelSlots
        { s with currentLevelCorrectWords :=
            updateCorrectWordsDisplayed s.currentLevelCorrectWords word }
        username (splitChars word) index hitMax)
      word hitMax)
    hitMax

/-- Model of `updateGameState(username, letters, index, hitMax)`.  The commented-out
`if (word.includes('?'))` guard of the source is inactive, so the chat-stream
lookup runs for every correct guess; on lookup failure the handler warns and
returns with no state change. -/
def updateGameState (s : GS) (username : Str) (letters : List Str) (index : Nat)
    (hitMax : Bool) : GS :=
  match resolveGuessWord s username letters.length with
  | none => s
  | some word => applyResolvedGuess s username word index hitMax

/-- The `knownLetters` expression of `logMissingWords`: the big word when set,
otherwise the joined level letters with (only) the first `'?'` removed
(`.replace('?', '')` replaces a single occurrence). -/
def missingWordsInput (s : GS) : Str :=
  if s.currentLevelBigWord ≠ [] then s.currentLevelBigWord
  else removeFirst '?' (joinAll s.currentLevelLetters)

/-- The `minLength` expression of `logMissingWords`:
`Math.min(...slots.map(slot => slot.letters.length))`, defaulting to 4. -/
def missingWordsMinLength (s : GS) : Nat :=
  match s.currentLevelSlots with
  | [] => 4
  | sl :: rest => (rest.map (fun t => t.letters.length)).foldl min sl.letters.length

/-- One step of `logMissingWords`: append a missing word, `'*'`-marked,
through `updateCorrectWordsDisplayed`. -/
def appendInferredWord (st : GS) (w : Str) : GS :=
  { st with currentLevelCorrectWords :=
      updateCorrectWordsDisplayed st.currentLevelCorrectWords (w ++ ['*']) }

/-- Model of `logMissingWords()`: run `findAllMissingWords` and append each result with
the `'*'` marker. -/
def logMissingWords (dict : List Str) (s : GS) : GS :=
  (findAllMissingWords dict s.currentLevelCorrectWords
    (missingWordsInput s) (missingWordsMinLength s)).foldl appendInferredWord s

/-- Model of `recordBoardClear()` (persistence of the counter is external). -/
def recordBoardClear (s : GS) : GS := { s with dailyClears := s.dailyClears + 1 }

/-- Model of `updateChannelDailyRecord(level)`. -/
def updateChannelDailyRecord (s : GS) (level : Nat) : GS :=
  if s.dailyBest < level then { s with dailyBest := level } else s

/-- Observable outcome of `handleLevelResults`: the state after the handler,
the `saveBoard` invocations it issued (board id and slots per call), whether
the missing-word pass ran, and whether the handler threw
(`slots[slots.length - 1]` on an empty array). -/
structure LevelResultsOut where
  state : GS
  saves : List (Str × List Slot)
  ranMissingWords : Bool
  crashed : Bool
deriving DecidableEq, Repr

/-- Model of `handleLevelResults(stars)`.  `stars === 5` declares a clear, as does
every slot having a truthy user; a clear increments the daily-clear counter
and, when a big word is recorded, saves the board under the last slot's word
when that word differs from the recorded big word.  Otherwise the handler
logs missing words (and empty-slot counts, which only feed log lines). -/
def handleLevelResults (dict : List Str) (s : GS) (stars : Nat) : LevelResultsOut :=
  let s1 := updateChannelDailyRecord { s with currentLevel := s.currentLevel + stars }
    (s.currentLevel + stars)
  if stars = 5 ∨ s1.currentLevelSlots.all (fun slot => userTruthy slot.user) then
    let s2 := recordBoardClear s1
    if s2.currentLevelBigWord ≠ [] then
      match s2.currentLevelSlots.getLast? with
      | none => ⟨s2, [], false, true⟩
      | some lastSlot =>
        let s3 :=
          if lastSlot.word ≠ s2.currentLevelBigWord
          then { s2 with currentLevelBigWord := lastSlot.word } else s2
        ⟨s3, [(s3.currentLevelBigWord, s3.currentLevelSlots)], false, false⟩
    else ⟨s2, [], false, false⟩
  else
    ⟨logMissingWords dict s1, [], true, false⟩

/-- Modelled from the spec (sentence behind claim C5): the CUMULATIVE
per-letter frequency across all confirmed correct words, i.e. the per-word
letter counts summed over the words (inferred `*` entries excluded). -/
def cumulativeLetterFrequency (correctWords : List Str) (letter : Str) : Nat :=
  (correctWords.filter (fun w => decide ('*' ∉ w))).foldl
    (fun n w => n + (wordLetters w).count letter) 0

/-! ## Helper lemmas -/

/-! ## Definitions used by the verification statements -/

/-- The ordering the spec states for `correctWords`: marker-stripped length
ascending, then case-insensitive lexicographic order, then inferred (`*`)
entries after resolved entries of the same word. -/
def specWordOrder (a b : Str) : Prop :=
  (removeFirst '*' a).length < (removeFirst '*' b).length
  ∨ ((removeFirst '*' a).length = (removeFirst '*' b).length
     ∧ (lexCompareCh (toLowerStr (removeFirst '*' a)) (toLowerStr (removeFirst '*' b)) = Ordering.lt
        ∨ (lexCompareCh (toLowerStr (removeFirst '*' a)) (toLowerStr (removeFirst '*' b)) = Ordering.eq
           ∧ (endsWithStar a = true → endsWithStar b = true))))

/-- A fresh length-4 slot, as delivered on level start. -/
def sampleEmptySlot : Slot := ⟨[['.'],['.'],['.'],['.']], [], none, false, 0, 4⟩

/-- A state with one empty slot and an empty chat stream. -/
def emptyChatState : GS := ⟨none, [], 0, 0, 0, [], [], [], [], [], [sampleEmptySlot], [], [], [], []⟩

/-- The same state after bob chatted "test". -/
def bobChatState : GS :=
  { emptyChatState with lastTwitchMessage := some ⟨['b','o','b'], ['t','e','s','t'], 5⟩ }

/-- A filled slot resolved to `w` by user "u". -/
def filledSlot (i : Nat) (w : Str) : Slot := ⟨splitChars w, w, some ['u'], false, i, w.length⟩

/-- A fully resolved two-slot board whose recorded big word ("T E S T"-style
spaced text) disagrees with the last slot's word. -/
def clearSampleState : GS :=
  ⟨none, [], 0, 0, 2, ['T',' ','E'], [], [], [], [],
    [filledSlot 0 ['t','e','s','t'], filledSlot 1 ['w','o','r','d']], [], [], [], []⟩

/-- The claim's board-id normalization: after whitespace stripping and
case-folding, only letters, with length between 4 and 20 inclusive. -/
def boardIdNormalized (boardId : Str) : Prop :=
  upperAlphaOnly (cleanBoardId boardId) = true
  ∧ 4 ≤ (cleanBoardId boardId).length ∧ (cleanBoardId boardId).length ≤ 20

/-- Check that the `index` fields of `l` are `k, k + 1, ...` in order — the
shape of every slot collection the engine builds, where a slot's `index` is
its array position. -/
def wellIndexedFrom : Nat → List Slot → Bool
  | _, [] => true
  | k, sl :: rest => sl.index = k && wellIndexedFrom (k + 1) rest

/-- A slot collection whose `index` fields are the positions `0, 1, ...`. -/
def WellIndexed (slots : List Slot) : Prop := wellIndexedFrom 0 slots = true

/-- A board used to witness C6: filled, empty, empty, filled, empty. -/
def c6SampleSlots : List Slot :=
  [filledSlot 0 ['c','a','t','s'],
    ⟨[['.'],['.'],['.'],['.']], [], none, false, 1, 4⟩,
    ⟨[['.'],['.'],['.'],['.'],['.']], [], none, false, 2, 5⟩,
    filledSlot 3 ['f','i','s','h'],
    ⟨[['.'],['.'],['.'],['.']], [], none, false, 4, 4⟩]

instance (slots : List Slot) : Decidable (WellIndexed slots) := by
  unfold WellIndexed
  infer_instance

theorem canFormWord_iff (w : Str) : ∀ letters : Str,
    (canFormWord w letters = true ↔ ∀ c : Char, w.count c ≤ letters.count c) := by
  induction w with
  | nil => intro letters; simp [canFormWord]
  | cons c rest ih =>
    intro letters
    simp only [canFormWord]
    by_cases h : 0 < letters.count c
    · rw [if_pos h, ih]
      constructor
      · intro hall d
        rcases eq_or_ne d c with rfl | hdc
        · have hc := hall d
          rw [List.count_erase_self] at hc
          simp only [List.count_cons_self]
          omega
        · have hc := hall d
          rw [List.count_erase_of_ne hdc] at hc
          simpa [List.count_cons_of_ne hdc] using hc
      · intro hall d
        rcases eq_or_ne d c with rfl | hdc
        · rw [List.count_erase_self]
          have hc := hall d
          simp only [List.count_cons_self] at hc
          omega
        · rw [List.count_erase_of_ne hdc]
          have hc := hall d
          simpa [List.count_cons_of_ne hdc] using hc
    · rw [if_neg h]
      constructor
      · intro hf; exact absurd hf Bool.false_ne_true
      · intro hall
        have hc := hall c
        simp only [List.count_cons_self] at hc
        omega

theorem mem_dedupFirstGo {α : Type} [DecidableEq α] (a : α) :
    ∀ (l seen : List α), a ∈ dedupFirstGo l seen ↔ a ∈ l ∧ a ∉ seen := by
  intro l
  induction l with
  | nil => intro seen; simp [dedupFirstGo]
  | cons x xs ih =>
    intro seen
    simp only [dedupFirstGo]
    by_cases hx : x ∈ seen
    · rw [if_pos hx, ih]
      by_cases hax : a = x
      · subst hax; simp [hx]
      · simp [hax]
    · rw [if_neg hx]
      by_cases hax : a = x
      · subst hax; simp [hx]
      · simp only [List.mem_cons, hax, false_or, ih, List.mem_cons]

theorem mem_dedupFirst {α : Type} [DecidableEq α] (a : α) (l : List α) :
    a ∈ dedupFirst l ↔ a ∈ l := by
  simp [dedupFirst, mem_dedupFirstGo]

theorem nodup_dedupFirstGo {α : Type} [DecidableEq α] :
    ∀ (l seen : List α), (dedupFirstGo l seen).Nodup := by
  intro l
  induction l with
  | nil => intro seen; simp [dedupFirstGo]
  | cons x xs ih =>
    intro seen
    simp only [dedupFirstGo]
    by_cases hx : x ∈ seen
    · rw [if_pos hx]; exact ih seen
    · rw [if_neg hx]
      refine List.nodup_cons.mpr ⟨?_, ih (x :: seen)⟩
      intro hmem
      exact ((mem_dedupFirstGo x xs (x :: seen)).mp hmem).2 (List.mem_cons_self x seen)

theorem nodup_dedupFirst {α : Type} [DecidableEq α] (l : List α) : (dedupFirst l).Nodup :=
  nodup_dedupFirstGo l []

theorem mem_sortWords (a : Str) (l : List Str) : a ∈ sortWords l ↔ a ∈ l :=
  (List.perm_insertionSort wordLe l).mem_iff

theorem mem_findWosWordsByLetters_some (dict : List Str) (L : Str) (n : Nat) (u : Str) :
    u ∈ findWosWordsByLetters dict L (some n) ↔
      ∃ v, v ∈ dict ∧ canFormWord (toLowerStr v) (toLowerStr L) = true ∧
        n ≤ v.length ∧ toLowerStr v = u := by
  unfold findWosWordsByLetters
  rw [(List.perm_insertionSort _ _).mem_iff, mem_dedupFirst]
  simp only [List.mem_map, List.mem_filter, decide_eq_true_eq]
  constructor
  · rintro ⟨v, ⟨⟨hv, hform⟩, hlen⟩, rfl⟩
    exact ⟨v, hv, hform, hlen, rfl⟩
  · rintro ⟨v, hv, hform, hlen, rfl⟩
    exact ⟨v, ⟨⟨hv, hform⟩, hlen⟩, rfl⟩

theorem mem_findWosWordsByLetters_none (dict : List Str) (L : Str) (u : Str) :
    u ∈ findWosWordsByLetters dict L none ↔
      ∃ v, v ∈ dict ∧ canFormWord (toLowerStr v) (toLowerStr L) = true ∧
        3 < v.length ∧ toLowerStr v = u := by
  unfold findWosWordsByLetters
  rw [(List.perm_insertionSort _ _).mem_iff, mem_dedupFirst]
  simp only [List.mem_map, List.mem_filter, decide_eq_true_eq]
  constructor
  · rintro ⟨v, ⟨⟨hv, hform⟩, hlen⟩, rfl⟩
    exact ⟨v, hv, hform, hlen, rfl⟩
  · rintro ⟨v, hv, hform, hlen, rfl⟩
    exact ⟨v, ⟨⟨hv, hform⟩, hlen⟩, rfl⟩

theorem length_toLowerStr (s : Str) : (toLowerStr s).length = s.length := by
  simp [toLowerStr]

theorem count_removeFirst_self (c : Char) :
    ∀ l : Str, c ∈ l → (removeFirst c l).count c = l.count c - 1 := by
  intro l
  induction l with
  | nil => intro h; cases h
  | cons x xs ih =>
    intro hmem
    by_cases hx : x = c
    · subst hx
      simp [removeFirst, List.count_cons_self]
    · rw [removeFirst, if_neg hx]
      have hmem' : c ∈ xs := by
        rcases List.mem_cons.mp hmem with h | h
        · exact absurd h.symm hx
        · exact h
      rw [List.count_cons_of_ne (fun h => hx h.symm), ih hmem',
        List.count_cons_of_ne (fun h => hx h.symm)]

/-- C2 counterexample: with letters "abcde" and `exactLength = 4` the search
returns "abcde", a word of length 5, so the results are not all of exactly
the requested length. -/
theorem c2_counterexample :
    ∃ w ∈ findWosWordsByLetters [['a','b','c','d','e']] ['a','b','c','d','e'] (some 4),
      w.length ≠ 4 := by decide

/-- C2 (amended): every word returned with a supplied `exactLength` has length
at least (not exactly) that value — the argument acts as a minimum length —
and without it every result word has length strictly greater than 3. -/
theorem c2_min_length_filter (dict : List Str) (L : Str) (n : Nat) :
    (∀ w ∈ findWosWordsByLetters dict L (some n), n ≤ w.length)
    ∧ (∀ w ∈ findWosWordsByLetters dict L none, 3 < w.length) := by
  constructor
  · intro w hw
    rw [mem_findWosWordsByLetters_some] at hw
    rcases hw with ⟨v, _, _, hlen, rfl⟩
    rw [length_toLowerStr]; exact hlen
  · intro w hw
    rw [mem_findWosWordsByLetters_none] at hw
    rcases hw with ⟨v, _, _, hlen, rfl⟩
    rw [length_toLowerStr]; exact hlen

/-- Witness for C2: instantiating the amended bound at the concrete search
above. -/
theorem c2_witness : 4 ≤ (['a','b','c','d','e'] : Str).length :=
  (c2_min_length_filter [['a','b','c','d','e']] ['a','b','c','d','e'] 4).1
    ['a','b','c','d','e'] (by decide)

/-- C3: for a lexicon word `w`, its (lowercased) form appears in the search
result for `L` with no exact length iff every character of (lowercased) `w`
occurs in (lowercased) `L` with at least the multiplicity `w` requires, and
`w` is longer than 3.  (All result entries are lowercased, so appearing
case-insensitively is membership of the lowercased form; the multiplicity
comparison is case-insensitive, as in the source.) -/
theorem c3_candidate_search_iff (dict : List Str) (L : Str) (w : Str) (hw : w ∈ dict) :
    toLowerStr w ∈ findWosWordsByLetters dict L none ↔
      ((∀ c : Char, (toLowerStr w).count c ≤ (toLowerStr L).count c) ∧ 3 < w.length) := by
  rw [mem_findWosWordsByLetters_none]
  constructor
  · rintro ⟨v, hv, hform, hlen, heq⟩
    constructor
    · intro c
      rw [← heq]
      exact (canFormWord_iff _ _).mp hform c
    · have h1 : (toLowerStr v).length = (toLowerStr w).length := by rw [heq]
      rw [length_toLowerStr, length_toLowerStr] at h1
      omega
  · rintro ⟨hcount, hlen⟩
    exact ⟨w, hw, (canFormWord_iff _ _).mpr hcount, hlen, rfl⟩

/-- Witness for C3 at a one-word lexicon. -/
theorem c3_witness :
    toLowerStr ['T','e','s','t'] ∈
        findWosWordsByLetters [['T','e','s','t']] ['t','s','e','t'] none ↔
      ((∀ c : Char, (toLowerStr ['T','e','s','t']).count c ≤
          (toLowerStr ['t','s','e','t']).count c) ∧ 3 < (['T','e','s','t'] : Str).length) :=
  c3_candidate_search_iff [['T','e','s','t']] ['t','s','e','t'] ['T','e','s','t'] (by decide)

/-- C10: when the defining word is unknown, the available-letter input of the
whole-level missing-word pass is the joined level letters with only the FIRST
`'?'` removed; with two or more placeholders the remaining ones stay in the
string handed to the candidate search, whose availability check counts them
exactly like any other character. -/
theorem c10_missing_input_placeholder (s : GS)
    (hbw : s.currentLevelBigWord = [])
    (hq : 2 ≤ (joinAll s.currentLevelLetters).count '?') :
    missingWordsInput s = removeFirst '?' (joinAll s.currentLevelLetters)
    ∧ (missingWordsInput s).count '?' = (joinAll s.currentLevelLetters).count '?' - 1
    ∧ 1 ≤ (missingWordsInput s).count '?'
    ∧ (∀ w : Str, canFormWord w (missingWordsInput s) = true ↔
        ∀ c : Char, w.count c ≤ (missingWordsInput s).count c) := by
  have hinput : missingWordsInput s = removeFirst '?' (joinAll s.currentLevelLetters) := by
    simp [missingWordsInput, hbw]
  have hmem : '?' ∈ joinAll s.currentLevelLetters := by
    have := List.count_pos_iff.mp (by omega : 0 < (joinAll s.currentLevelLetters).count '?')
    exact this
  have hcount : (missingWordsInput s).count '?' = (joinAll s.currentLevelLetters).count '?' - 1 := by
    rw [hinput, count_removeFirst_self '?' _ hmem]
  refine ⟨hinput, hcount, by omega, fun w => canFormWord_iff w _⟩

/-- Witness for C10 at a concrete two-placeholder state. -/
theorem c10_witness :
    (missingWordsInput ⟨none, [], 0, 0, 0, [], [], [['t'],['?'],['e'],['?']], [], [], [], [], [], [], []⟩
        = removeFirst '?' (joinAll [['t'],['?'],['e'],['?']]))
    ∧ ((missingWordsInput ⟨none, [], 0, 0, 0, [], [], [['t'],['?'],['e'],['?']], [], [], [], [], [], [], []⟩).count '?'
        = (joinAll [['t'],['?'],['e'],['?']]).count '?' - 1)
    ∧ 1 ≤ (missingWordsInput ⟨none, [], 0, 0, 0, [], [], [['t'],['?'],['e'],['?']], [], [], [], [], [], [], []⟩).count '?'
    ∧ (∀ w : Str, canFormWord w (missingWordsInput ⟨none, [], 0, 0, 0, [], [], [['t'],['?'],['e'],['?']], [], [], [], [], [], [], []⟩) = true ↔
        ∀ c : Char, w.count c ≤ (missingWordsInput ⟨none, [], 0, 0, 0, [], [], [['t'],['?'],['e'],['?']], [], [], [], [], [], [], []⟩).count c) :=
  c10_missing_input_placeholder _ (by decide) (by decide)

theorem lexCompareCh_self (x : Str) : lexCompareCh x x = Ordering.eq := by
  induction x with
  | nil => rfl
  | cons a as ih => simp [lexCompareCh, lt_irrefl, ih]

theorem lexCompareCh_eq_iff (x : Str) : ∀ y : Str, lexCompareCh x y = Ordering.eq ↔ x = y := by
  induction x with
  | nil => intro y; cases y <;> simp [lexCompareCh]
  | cons a as ih =>
    intro y
    cases y with
    | nil => simp [lexCompareCh]
    | cons b bs =>
      simp only [lexCompareCh, List.cons.injEq]
      rcases lt_trichotomy a b with h | h | h
      · rw [if_pos h]
        simp [ne_of_lt h]
      · subst h
        rw [if_neg (lt_irrefl a), if_neg (lt_irrefl a)]
        simp [ih bs]
      · rw [if_neg (lt_asymm h), if_pos h]
        simp [(ne_of_lt h).symm]

theorem lexCompareCh_lt_trans : ∀ (x y z : Str), lexCompareCh x y = Ordering.lt →
    lexCompareCh y z = Ordering.lt → lexCompareCh x z = Ordering.lt := by
  intro x
  induction x with
  | nil =>
    intro y z hxy hyz
    cases z with
    | nil =>
      cases y <;> simp [lexCompareCh] at hxy hyz
    | cons c cs => rfl
  | cons a as ih =>
    intro y z hxy hyz
    cases y with
    | nil => simp [lexCompareCh] at hxy
    | cons b bs =>
      cases z with
      | nil => simp [lexCompareCh] at hyz
      | cons c cs =>
        simp only [lexCompareCh] at hxy hyz ⊢
        by_cases hab : a < b
        · by_cases hbc : b < c
          · rw [if_pos (lt_trans hab hbc)]
          · by_cases hcb : c < b
            · rw [if_neg hbc, if_pos hcb] at hyz; exact absurd hyz (by simp)
            · have hbceq : b = c := le_antisymm (le_of_not_lt hcb) (le_of_not_lt hbc)
              subst hbceq
              rw [if_pos hab]
        · by_cases hba : b < a
          · rw [if_neg hab, if_pos hba] at hxy; exact absurd hxy (by simp)
          · have habeq : a = b := le_antisymm (le_of_not_lt hba) (le_of_not_lt hab)
            subst habeq
            rw [if_neg hab, if_neg hba] at hxy
            by_cases hac : a < c
            · rw [if_pos hac]
            · by_cases hca : c < a
              · rw [if_neg hac, if_pos hca] at hyz; exact absurd hyz (by simp)
              · have haceq : a = c := le_antisymm (le_of_not_lt hca) (le_of_not_lt hac)
                subst haceq
                rw [if_neg (lt_irrefl a), if_neg (lt_irrefl a)] at hyz ⊢
                exact ih bs cs hxy hyz

theorem lexCompareCh_swap (x : Str) : ∀ y : Str, lexCompareCh y x = (lexCompareCh x y).swap := by
  induction x with
  | nil => intro y; cases y <;> simp [lexCompareCh, Ordering.swap]
  | cons a as ih =>
    intro y
    cases y with
    | nil => simp [lexCompareCh, Ordering.swap]
    | cons b bs =>
      simp only [lexCompareCh]
      rcases lt_trichotomy a b with h | h | h
      · rw [if_neg (lt_asymm h), if_pos h, if_pos h]
        rfl
      · subst h
        rw [if_neg (lt_irrefl a), if_neg (lt_irrefl a), if_neg (lt_irrefl a), if_neg (lt_irrefl a)]
        exact ih bs
      · rw [if_pos h, if_neg (lt_asymm h), if_pos h]
        rfl


/-- C7: the alphabetical filter accepts everything when both bounds are null,
rejects a word at or below a non-null lower bound (in particular the bound
itself: `fits(w, w, null) = false`), rejects a word at or above a non-null
upper bound (in particular `fits(w, null, w) = false`), and otherwise accepts
exactly the words strictly between the bounds, case-insensitively. -/
theorem c7_alphabetical_filter (w : Str) (lo hi : Option Str) :
    (wordFitsAlphabetically w none none = true)
    ∧ (wordFitsAlphabetically w (some w) none = false)
    ∧ (wordFitsAlphabetically w none (some w) = false)
    ∧ (wordFitsAlphabetically w lo hi = true ↔
        ((∀ l ∈ lo, lexCompareCh (toLowerStr w) (toLowerStr l) = Ordering.gt)
         ∧ (∀ u ∈ hi, lexCompareCh (toLowerStr w) (toLowerStr u) = Ordering.lt))) := by
  refine ⟨rfl, ?_, ?_, ?_⟩
  · simp only [wordFitsAlphabetically, lexCompareCh_self]
    rfl
  · simp only [wordFitsAlphabetically, lexCompareCh_self]
    rfl
  · cases lo with
    | none =>
      cases hi with
      | none => simp [wordFitsAlphabetically]
      | some u =>
        cases h : lexCompareCh (toLowerStr w) (toLowerStr u) <;>
          simp [wordFitsAlphabetically, h] <;> decide
    | some l =>
      cases hi with
      | none =>
        cases h : lexCompareCh (toLowerStr w) (toLowerStr l) <;>
          simp [wordFitsAlphabetically, h] <;> decide
      | some u =>
        cases h : lexCompareCh (toLowerStr w) (toLowerStr l) <;>
          cases h' : lexCompareCh (toLowerStr w) (toLowerStr u) <;>
            simp [wordFitsAlphabetically, h, h'] <;> decide

theorem ordSign_eq_zero_iff (o : Ordering) : ordSign o = 0 ↔ o = Ordering.eq := by
  cases o <;> simp [ordSign]

theorem wordLe_iff (a b : Str) : wordLe a b ↔ specWordOrder a b := by
  unfold wordLe codeCmp specWordOrder
  split_ifs with h1 h2 h3 h4
  · constructor
    · intro h
      left
      omega
    · rintro (h | ⟨h, _⟩) <;> omega
  · cases hcmp : lexCompareCh (toLowerStr (removeFirst '*' a)) (toLowerStr (removeFirst '*' b)) with
    | lt =>
      simp only [ordSign]
      constructor
      · intro _
        exact Or.inr ⟨by omega, Or.inl (by trivial)⟩
      · intro _
        omega
    | eq =>
      rw [hcmp] at h2
      simp [ordSign] at h2
    | gt =>
      simp only [ordSign]
      constructor
      · intro h
        omega
      · rintro (h | ⟨_, h | ⟨h, _⟩⟩)
        · omega
        · exact absurd h (by simp)
        · exact absurd h (by simp)
  · have hcmp : lexCompareCh (toLowerStr (removeFirst '*' a)) (toLowerStr (removeFirst '*' b))
        = Ordering.eq := (ordSign_eq_zero_iff _).mp (by omega)
    have hsb : endsWithStar b = false := by
      cases hb : endsWithStar b
      · rfl
      · exact absurd (h4.trans hb.symm) h3
    constructor
    · intro h
      omega
    · rintro (h | ⟨_, h | ⟨_, hs⟩⟩)
      · omega
      · rw [hcmp] at h
        exact absurd h (by simp)
      · rw [hs h4] at hsb
        exact absurd hsb (by simp)
  · have hcmp : lexCompareCh (toLowerStr (removeFirst '*' a)) (toLowerStr (removeFirst '*' b))
        = Ordering.eq := (ordSign_eq_zero_iff _).mp (by omega)
    have hsa : endsWithStar a = false := by
      cases ha : endsWithStar a
      · rfl
      · exact absurd ha h4
    constructor
    · intro _
      exact Or.inr ⟨by omega, Or.inr ⟨hcmp, fun hs => absurd hs (by rw [hsa]; simp)⟩⟩
    · intro _
      omega
  · have hcmp : lexCompareCh (toLowerStr (removeFirst '*' a)) (toLowerStr (removeFirst '*' b))
        = Ordering.eq := (ordSign_eq_zero_iff _).mp (by omega)
    have hstar : endsWithStar a = endsWithStar b := by
      by_contra hne
      exact h3 hne
    constructor
    · intro _
      exact Or.inr ⟨by omega, Or.inr ⟨hcmp, fun hs => hstar ▸ hs⟩⟩
    · intro _
      omega

theorem specWordOrder_trans {a b c : Str} (hab : specWordOrder a b) (hbc : specWordOrder b c) :
    specWordOrder a c := by
  unfold specWordOrder at hab hbc ⊢
  rcases hab with h1 | ⟨h1, h2⟩
  · rcases hbc with h3 | ⟨h3, _⟩
    · left; omega
    · left; omega
  · rcases hbc with h3 | ⟨h3, h4⟩
    · left; omega
    · right
      refine ⟨by omega, ?_⟩
      rcases h2 with h2 | ⟨h2, h2s⟩
      · rcases h4 with h4 | ⟨h4, _⟩
        · exact Or.inl (lexCompareCh_lt_trans _ _ _ h2 h4)
        · have heq := (lexCompareCh_eq_iff _ _).mp h4
          rw [← heq]
          exact Or.inl h2
      · have heq := (lexCompareCh_eq_iff _ _).mp h2
        rcases h4 with h4 | ⟨h4, h4s⟩
        · rw [heq]
          exact Or.inl h4
        · rw [heq]
          exact Or.inr ⟨h4, fun hs => h4s (h2s hs)⟩

theorem specWordOrder_total (a b : Str) : specWordOrder a b ∨ specWordOrder b a := by
  unfold specWordOrder
  rcases lt_trichotomy (removeFirst '*' a).length (removeFirst '*' b).length with h | h | h
  · exact Or.inl (Or.inl h)
  · cases hcmp : lexCompareCh (toLowerStr (removeFirst '*' a)) (toLowerStr (removeFirst '*' b)) with
    | lt => exact Or.inl (Or.inr ⟨h, Or.inl rfl⟩)
    | gt =>
      have hswap : lexCompareCh (toLowerStr (removeFirst '*' b)) (toLowerStr (removeFirst '*' a))
          = Ordering.lt := by
        rw [lexCompareCh_swap, hcmp]
        rfl
      exact Or.inr (Or.inr ⟨h.symm, Or.inl hswap⟩)
    | eq =>
      have hswap : lexCompareCh (toLowerStr (removeFirst '*' b)) (toLowerStr (removeFirst '*' a))
          = Ordering.eq := by
        rw [lexCompareCh_swap, hcmp]
        rfl
      cases hb : endsWithStar b
      · exact Or.inr (Or.inr ⟨h.symm, Or.inr ⟨hswap, by simp [hb]⟩⟩)
      · exact Or.inl (Or.inr ⟨h, Or.inr ⟨rfl, by simp [hb]⟩⟩)
  · exact Or.inr (Or.inl h)

/-- C8: after each append through `updateCorrectWordsDisplayed`, the
correct-word list is pairwise ordered by marker-stripped length ascending,
then case-insensitive lexicographic order, then inferred (`*`-marked) entries
after resolved entries of the same word; the only other modification of the
list (`clearBoard`) resets it to `[]`, which is trivially so ordered. -/
theorem c8_correct_words_sorted (words : List Str) (word : Str) :
    List.Pairwise specWordOrder (updateCorrectWordsDisplayed words word)
    ∧ List.Pairwise specWordOrder ([] : List Str) := by
  constructor
  · have hs : List.Sorted wordLe (sortWords (words ++ [word])) := by
      haveI ht : IsTotal Str wordLe :=
        ⟨fun x y => by
          rw [wordLe_iff, wordLe_iff]
          exact specWordOrder_total x y⟩
      haveI htr : IsTrans Str wordLe :=
        ⟨fun x y z hab hbc => by
          rw [wordLe_iff] at hab hbc ⊢
          exact specWordOrder_trans hab hbc⟩
      exact List.sorted_insertionSort wordLe _
    exact List.Pairwise.imp (fun hab => (wordLe_iff _ _).mp hab) hs
  · exact List.Pairwise.nil

theorem count_join_replicate (f : Str → Nat) (x : Str) :
    ∀ keys : List Str, keys.Nodup →
      ((keys.map (fun k => List.replicate (f k) k)).flatten).count x
        = if x ∈ keys then f x else 0 := by
  intro keys
  induction keys with
  | nil => intro _; simp
  | cons k ks ih =>
    intro hnd
    rcases List.nodup_cons.mp hnd with ⟨hk, hnd'⟩
    simp only [List.map_cons, List.flatten_cons, List.count_append, ih hnd',
      List.count_replicate]
    by_cases hx : x = k
    · subst hx
      simp [hk]
    · have hcnt : List.count x (List.replicate (f k) k) = 0 := by
        rw [List.count_eq_zero]
        intro hmem
        exact hx (List.eq_of_mem_replicate hmem)
      simp [hx, hcnt, List.mem_cons]
      intro h
      exact absurd h.symm hx

theorem foldl_max_count_zero (letter : Str) :
    ∀ (ws : List Str) (acc : Nat),
      (∀ w ∈ ws, (wordLetters w).count letter = 0) →
      ws.foldl (fun m w => max m ((wordLetters w).count letter)) acc = acc := by
  intro ws
  induction ws with
  | nil => intro acc _; rfl
  | cons w ws ih =>
    intro acc h
    have hw : (wordLetters w).count letter = 0 := h w (List.mem_cons_self w ws)
    simp only [List.foldl_cons, hw, Nat.max_zero]
    exact ih acc (fun v hv => h v (List.mem_cons_of_mem w hv))

theorem correctLettersFrequency_eq_zero (correctWords : List Str) (letter : Str)
    (h : letter ∉ correctFreqKeys correctWords) :
    correctLettersFrequency correctWords letter = 0 := by
  unfold correctFreqKeys at h
  rw [mem_dedupFirst] at h
  unfold correctLettersFrequency
  refine foldl_max_count_zero letter _ 0 ?_
  intro w hw
  rw [List.count_eq_zero]
  intro hmem
  exact h (List.mem_flatten.mpr ⟨wordLetters w, List.mem_map_of_mem wordLetters hw, hmem⟩)

/-- C5 counterexample: with correct words "dear" and "read" and level letters
d, e, a, r, the letter r is used twice cumulatively (once per word) while the
level shows it once — the claim would infer r hidden exactly once — yet the
engine infers nothing, because it merges per-word counts with max, not sum. -/
theorem c5_counterexample :
    cumulativeLetterFrequency [['d','e','a','r'], ['r','e','a','d']] (['r'] : Str)
        = levelLettersFrequency [['d'],['e'],['a'],['r']] (['r'] : Str) + 1
    ∧ (potentialHiddenLetters [['d','e','a','r'], ['r','e','a','d']]
        [['d'],['e'],['a'],['r']]).count (['r'] : Str) = 0 := by decide

/-- C5 (amended): while the defining word is unknown, the inference after a
resolved non-defining guess compares, for each letter, the MAXIMUM frequency
of that letter within any single confirmed correct word (inferred `*` entries
excluded) — not the cumulative sum across words — against the level's
known-letter frequency; a letter whose maximum single-word usage exceeds its
known count by N occurrences is inferred as hidden exactly N times. -/
theorem c5_max_frequency_inference (correctWords levelLetters : List Str) (letter : Str) :
    (potentialHiddenLetters correctWords levelLetters).count letter
      = correctLettersFrequency correctWords letter
          - levelLettersFrequency levelLetters letter := by
  unfold potentialHiddenLetters
  have hnd : (correctFreqKeys correctWords).Nodup := by
    unfold correctFreqKeys
    exact nodup_dedupFirst _
  have hcount := count_join_replicate
    (fun l => correctLettersFrequency correctWords l - levelLettersFrequency levelLetters l)
    letter (correctFreqKeys correctWords) hnd
  refine hcount.trans ?_
  by_cases hx : letter ∈ correctFreqKeys correctWords
  · rw [if_pos hx]
  · rw [if_neg hx]
    have h0 := correctLettersFrequency_eq_zero correctWords letter hx
    omega

theorem updateCurrentLevelSlots_correctWords (s : GS) (u : Str) (l : List Str) (i : Nat)
    (hm : Bool) :
    (updateCurrentLevelSlots s u l i hm).currentLevelCorrectWords
      = s.currentLevelCorrectWords := by
  unfold updateCurrentLevelSlots
  split <;> rfl

theorem calculateHiddenLetters_correctWords (s : GS) (bw : Str) :
    (calculateHiddenLetters s bw).currentLevelCorrectWords = s.currentLevelCorrectWords := by
  unfold calculateHiddenLetters
  dsimp only
  split <;> rfl

theorem calculateFakeLetters_correctWords (s : GS) (bw : Str) :
    (calculateFakeLetters s bw).currentLevelCorrectWords = s.currentLevelCorrectWords := by
  unfold calculateFakeLetters
  dsimp only
  split <;> rfl

theorem applyHiddenInference_correctWords (s : GS) :
    (applyHiddenInference s).currentLevelCorrectWords = s.currentLevelCorrectWords := by
  unfold applyHiddenInference
  dsimp only
  split_ifs <;> rfl

theorem applyBigWordBlock_correctWords (s : GS) (word : Str) (hm : Bool) :
    (applyBigWordBlock s word hm).currentLevelCorrectWords = s.currentLevelCorrectWords := by
  unfold applyBigWordBlock
  split
  · rw [calculateFakeLetters_correctWords, calculateHiddenLetters_correctWords]
  · rfl

theorem postGuessInference_correctWords (s : GS) (hm : Bool) :
    (postGuessInference s hm).currentLevelCorrectWords = s.currentLevelCorrectWords := by
  unfold postGuessInference
  split
  · exact applyHiddenInference_correctWords s
  · rfl

theorem applyResolvedGuess_correctWords (s : GS) (u : Str) (w : Str) (i : Nat) (hm : Bool) :
    (applyResolvedGuess s u w i hm).currentLevelCorrectWords
      = updateCorrectWordsDisplayed s.currentLevelCorrectWords w := by
  unfold applyResolvedGuess
  rw [postGuessInference_correctWords, applyBigWordBlock_correctWords,
    updateCurrentLevelSlots_correctWords]

theorem calculateHiddenLetters_slots (s : GS) (bw : Str) :
    (calculateHiddenLetters s bw).currentLevelSlots = s.currentLevelSlots := by
  unfold calculateHiddenLetters
  dsimp only
  split <;> rfl

theorem calculateFakeLetters_slots (s : GS) (bw : Str) :
    (calculateFakeLetters s bw).currentLevelSlots = s.currentLevelSlots := by
  unfold calculateFakeLetters
  dsimp only
  split <;> rfl

theorem applyHiddenInference_slots (s : GS) :
    (applyHiddenInference s).currentLevelSlots = s.currentLevelSlots := by
  unfold applyHiddenInference
  dsimp only
  split_ifs <;> rfl

theorem applyBigWordBlock_slots (s : GS) (word : Str) (hm : Bool) :
    (applyBigWordBlock s word hm).currentLevelSlots = s.currentLevelSlots := by
  unfold applyBigWordBlock
  split
  · rw [calculateFakeLetters_slots, calculateHiddenLetters_slots]
  · rfl

theorem postGuessInference_slots (s : GS) (hm : Bool) :
    (postGuessInference s hm).currentLevelSlots = s.currentLevelSlots := by
  unfold postGuessInference
  split
  · exact applyHiddenInference_slots s
  · rfl

theorem applyResolvedGuess_slots (s : GS) (u : Str) (w : Str) (i : Nat) (hm : Bool)
    (hi : i < s.currentLevelSlots.length) :
    (applyResolvedGuess s u w i hm).currentLevelSlots
      = s.currentLevelSlots.set i
          ⟨splitChars w, joinAll (splitChars w), some u, hm, i, (splitChars w).length⟩ := by
  unfold applyResolvedGuess
  rw [postGuessInference_slots, applyBigWordBlock_slots]
  unfold updateCurrentLevelSlots
  rw [if_pos hi]

/-- C1 counterexample: a correct-guess event for "test" — letters free of the
`'?'` placeholder — with an empty chat stream is dropped entirely: the state
is unchanged and the guessed word is not appended, so resolution does depend
on the secondary chat stream. -/
theorem c1_counterexample :
    (['?'] ∉ ([['t'],['e'],['s'],['t']] : List Str))
    ∧ updateGameState emptyChatState ['b','o','b'] [['t'],['e'],['s'],['t']] 0 false
        = emptyChatState
    ∧ joinAll [['t'],['e'],['s'],['t']]
        ∉ (updateGameState emptyChatState ['b','o','b'] [['t'],['e'],['s'],['t']] 0
            false).currentLevelCorrectWords := by
  decide

/-- C1 (amended): every correct-guess event — whether or not its letters
contain the `'?'` placeholder — is resolved solely through the chat stream.
When neither the most recent chat message nor the contributor's chat-log
entry matches (author, lowercased, and message length against the letter
count), the handler returns with no state change and the guess is dropped;
when one matches, its text is the resolved word, which is appended to the
correct-word list and written into the slot at the event's position index. -/
theorem c1_amended_resolution (s : GS) (username : Str) (letters : List Str) (index : Nat)
    (hitMax : Bool) :
    (resolveGuessWord s username letters.length = none →
      updateGameState s username letters index hitMax = s)
    ∧ (∀ w, resolveGuessWord s username letters.length = some w →
        w ∈ (updateGameState s username letters index hitMax).currentLevelCorrectWords
        ∧ (index < s.currentLevelSlots.length →
            (updateGameState s username letters index hitMax).currentLevelSlots.get? index
              = some ⟨splitChars w, joinAll (splitChars w), some username, hitMax, index,
                  (splitChars w).length⟩)) := by
  constructor
  · intro h
    unfold updateGameState
    rw [h]
  · intro w h
    unfold updateGameState
    rw [h]
    constructor
    · rw [applyResolvedGuess_correctWords]
      unfold updateCorrectWordsDisplayed
      rw [mem_sortWords]
      exact List.mem_append_right _ (List.mem_singleton_self w)
    · intro hi
      rw [applyResolvedGuess_slots s username w index hitMax hi]
      rw [List.get?_eq_getElem?]
      exact List.getElem?_set_self hi

/-- Witness for C1 at a state where the last chat message matches. -/
theorem c1_witness :
    ['t','e','s','t'] ∈ (updateGameState bobChatState ['B','o','b'] [['t'],['e'],['s'],['t']]
      0 false).currentLevelCorrectWords
    ∧ (updateGameState bobChatState ['B','o','b'] [['t'],['e'],['s'],['t']]
        0 false).currentLevelSlots.get? 0
      = some ⟨splitChars ['t','e','s','t'], joinAll (splitChars ['t','e','s','t']),
          some ['B','o','b'], false, 0, (splitChars ['t','e','s','t']).length⟩ := by
  have h := (c1_amended_resolution bobChatState ['B','o','b'] [['t'],['e'],['s'],['t']] 0
    false).2 ['t','e','s','t'] (by decide)
  exact ⟨h.1, h.2 (by decide)⟩

theorem updateChannelDailyRecord_fields (s : GS) (n : Nat) :
    (updateChannelDailyRecord s n).currentLevelSlots = s.currentLevelSlots
    ∧ (updateChannelDailyRecord s n).dailyClears = s.dailyClears
    ∧ (updateChannelDailyRecord s n).currentLevelBigWord = s.currentLevelBigWord := by
  unfold updateChannelDailyRecord
  split <;> exact ⟨rfl, rfl, rfl⟩

theorem foldl_appendInferredWord_dailyClears :
    ∀ (ws : List Str) (st : GS), (ws.foldl appendInferredWord st).dailyClears = st.dailyClears := by
  intro ws
  induction ws with
  | nil => intro st; rfl
  | cons w ws ih => intro st; simpa using ih _

theorem logMissingWords_dailyClears (dict : List Str) (s : GS) :
    (logMissingWords dict s).dailyClears = s.dailyClears := by
  unfold logMissingWords
  exact foldl_appendInferredWord_dailyClears _ _

/-- C4: on a level-results event, the daily-clear counter is incremented by
exactly one iff the reported stars equal 5 or every slot has a (truthy)
contributor; in that clear case, when a defining word is recorded and a last
slot exists whose word disagrees with it, `saveBoard` is invoked exactly once
with the last slot's word as board id; otherwise the handler runs the
missing-word inference and leaves the counter unchanged. -/
theorem c4_level_results_clears_and_save (dict : List Str) (s : GS) (stars : Nat) :
    ((handleLevelResults dict s stars).state.dailyClears = s.dailyClears + 1 ↔
      (stars = 5 ∨ ∀ slot ∈ s.currentLevelSlots, userTruthy slot.user = true))
    ∧ ((stars = 5 ∨ ∀ slot ∈ s.currentLevelSlots, userTruthy slot.user = true) →
        s.currentLevelBigWord ≠ [] →
        ∀ lastSlot ∈ s.currentLevelSlots.getLast?,
          lastSlot.word ≠ s.currentLevelBigWord →
          (handleLevelResults dict s stars).saves
            = [(lastSlot.word, (handleLevelResults dict s stars).state.currentLevelSlots)])
    ∧ (¬(stars = 5 ∨ ∀ slot ∈ s.currentLevelSlots, userTruthy slot.user = true) →
        (handleLevelResults dict s stars).ranMissingWords = true
        ∧ (handleLevelResults dict s stars).state.dailyClears = s.dailyClears) := by
  rcases updateChannelDailyRecord_fields { s with currentLevel := s.currentLevel + stars }
    (s.currentLevel + stars) with ⟨hslots, hclears, hbig⟩
  have hcond : (stars = 5 ∨ (updateChannelDailyRecord { s with currentLevel := s.currentLevel + stars }
        (s.currentLevel + stars)).currentLevelSlots.all (fun slot => userTruthy slot.user) = true)
      ↔ (stars = 5 ∨ ∀ slot ∈ s.currentLevelSlots, userTruthy slot.user = true) := by
    rw [hslots, List.all_eq_true]
  by_cases hc : stars = 5 ∨ ∀ slot ∈ s.currentLevelSlots, userTruthy slot.user = true
  · refine ⟨?_, ?_, fun hn => absurd hc hn⟩
    · rw [iff_true_intro hc, iff_true]
      unfold handleLevelResults
      rw [if_pos (hcond.mpr hc)]
      by_cases hbw : (recordBoardClear (updateChannelDailyRecord
          { s with currentLevel := s.currentLevel + stars }
          (s.currentLevel + stars))).currentLevelBigWord ≠ []
      · rw [if_pos hbw]
        rcases hl : (recordBoardClear (updateChannelDailyRecord
            { s with currentLevel := s.currentLevel + stars }
            (s.currentLevel + stars))).currentLevelSlots.getLast? with _ | lastSlot
        · simp only [hl]
          unfold recordBoardClear
          simp [hclears]
        · simp only [hl]
          split <;> simp [recordBoardClear, hclears]
      · rw [if_neg hbw]
        unfold recordBoardClear
        simp [hclears]
    · intro _ hbig0 lastSlot hlast hne
      unfold handleLevelResults
      rw [if_pos (hcond.mpr hc)]
      have hbw : (recordBoardClear (updateChannelDailyRecord
          { s with currentLevel := s.currentLevel + stars }
          (s.currentLevel + stars))).currentLevelBigWord ≠ [] := by
        show (updateChannelDailyRecord _ _).currentLevelBigWord ≠ []
        rw [hbig]
        exact hbig0
      rw [if_pos hbw]
      have hl : (recordBoardClear (updateChannelDailyRecord
          { s with currentLevel := s.currentLevel + stars }
          (s.currentLevel + stars))).currentLevelSlots.getLast? = some lastSlot := by
        show (updateChannelDailyRecord _ _).currentLevelSlots.getLast? = some lastSlot
        rw [hslots]
        exact hlast
      simp only [hl]
      have hne' : lastSlot.word ≠ (recordBoardClear (updateChannelDailyRecord
          { s with currentLevel := s.currentLevel + stars }
          (s.currentLevel + stars))).currentLevelBigWord := by
        show lastSlot.word ≠ (updateChannelDailyRecord _ _).currentLevelBigWord
        rw [hbig]
        exact hne
      rw [if_pos hne']
  · refine ⟨?_, fun h => absurd h hc, ?_⟩
    · rw [iff_false_intro hc]
      unfold handleLevelResults
      rw [if_neg (fun h => hc (hcond.mp h))]
      simp only [logMissingWords_dailyClears, hclears]
      show s.dailyClears = s.dailyClears + 1 ↔ False
      simp only [iff_false]
      omega
    · intro _
      unfold handleLevelResults
      rw [if_neg (fun h => hc (hcond.mp h))]
      refine ⟨rfl, ?_⟩
      simp only [logMissingWords_dailyClears, hclears]

/-- Witness for C4: a 5-star result on the sample board increments the clear
counter and saves once under the last slot's word. -/
theorem c4_witness :
    ((handleLevelResults [] clearSampleState 5).state.dailyClears
        = clearSampleState.dailyClears + 1)
    ∧ (handleLevelResults [] clearSampleState 5).saves
        = [((filledSlot 1 ['w','o','r','d']).word,
            (handleLevelResults [] clearSampleState 5).state.currentLevelSlots)] := by
  have h := c4_level_results_clears_and_save [] clearSampleState 5
  exact ⟨h.1.mpr (Or.inl rfl),
    h.2.1 (Or.inl rfl) (by decide) (filledSlot 1 ['w','o','r','d']) (by decide) (by decide)⟩

/-- C9: `saveBoard` rejects — returns without issuing a request — whenever the
cleaned board id fails normalization or any slot is incomplete (placeholder
symbol among its letters, or an empty word). -/
instance : DecidablePred boardIdNormalized := fun b => by
  unfold boardIdNormalized
  infer_instance

theorem c9_save_board_rejects (boardId : Str) (slots : List Slot)
    (h : ¬ boardIdNormalized boardId ∨ ∃ sl ∈ slots, slotIncomplete sl = true) :
    saveBoard boardId slots = SaveResult.rejected := by
  unfold saveBoard
  split_ifs with h1 h2 h3 h4 h5 <;> try rfl
  rcases h with hid | ⟨sl, hmem, hinc⟩
  · refine absurd ?_ hid
    refine ⟨?_, ?_, ?_⟩
    · cases hval : upperAlphaOnly (cleanBoardId boardId)
      · rw [hval] at h2
        exact absurd rfl h2
      · rfl
    · simp only [Bool.or_eq_true, decide_eq_true_eq, not_or] at h3
      omega
    · simp only [Bool.or_eq_true, decide_eq_true_eq, not_or] at h3
      omega
  · exact absurd (List.any_eq_true.mpr ⟨sl, hmem, hinc⟩) h5

/-- Witness for C9: a two-letter board id is rejected. -/
theorem c9_witness : saveBoard ['a','b'] [] = SaveResult.rejected :=
  c9_save_board_rejects ['a','b'] [] (by decide)

theorem createGroupWithBounds_slots (g : List (Nat × Nat)) (allSlots : List Slot) :
    (createGroupWithBounds g allSlots).slots = g := rfl

theorem groupRunsAux_flatten (allSlots : List Slot) :
    ∀ (ys cur : List (Nat × Nat)) (prev : Nat × Nat),
      ((groupRunsAux allSlots cur prev ys).map EmptySlotGroup.slots).flatten = cur ++ ys := by
  intro ys
  induction ys with
  | nil =>
    intro cur prev
    simp [groupRunsAux, createGroupWithBounds_slots]
  | cons y ys ih =>
    intro cur prev
    unfold groupRunsAux
    split
    · rw [ih]
      simp
    · simp only [List.map_cons, List.flatten_cons, createGroupWithBounds_slots, ih]
      simp

theorem wellIndexedFrom_iff :
    ∀ (l : List Slot) (k : Nat),
      wellIndexedFrom k l = true ↔ ∀ i (h : i < l.length), (l.get ⟨i, h⟩).index = k + i := by
  intro l
  induction l with
  | nil => intro k; simp [wellIndexedFrom]
  | cons sl rest ih =>
    intro k
    simp only [wellIndexedFrom, Bool.and_eq_true, decide_eq_true_eq, ih]
    constructor
    · rintro ⟨h0, hrest⟩ i h
      cases i with
      | zero => simpa using h0
      | succ i =>
        have := hrest i (by simpa using Nat.lt_of_succ_lt_succ h)
        simpa [Nat.add_assoc, Nat.add_comm 1 i] using this
    · intro hall
      refine ⟨by simpa using hall 0 (Nat.succ_pos _), ?_⟩
      intro i h
      have := hall (i + 1) (Nat.succ_lt_succ h)
      simp only [List.get_cons_succ] at this
      rw [this]
      omega

theorem wellIndexed_get {slots : List Slot} (hw : WellIndexed slots) (i : Nat)
    (h : i < slots.length) : (slots.get ⟨i, h⟩).index = i := by
  have := (wellIndexedFrom_iff slots 0).mp hw i h
  simpa using this

theorem wellIndexed_mem {slots : List Slot} (hw : WellIndexed slots) {x : Slot}
    (hx : x ∈ slots) : x.index < slots.length ∧
      slots.get? x.index = some x := by
  rcases List.mem_iff_get.mp hx with ⟨⟨n, hn⟩, rfl⟩
  rw [wellIndexed_get hw n hn]
  exact ⟨hn, (List.get?_eq_get hn).symm ▸ rfl⟩

theorem lookupByIndex_wellIndexed {slots : List Slot} (hw : WellIndexed slots) (j : Nat) :
    lookupByIndex slots j = slots.get? j := by
  unfold lookupByIndex
  rcases Nat.lt_or_ge j slots.length with hj | hj
  · cases hfind : slots.reverse.find? (fun s => s.index = j) with
    | none =>
      exfalso
      have hmem : slots.get ⟨j, hj⟩ ∈ slots.reverse :=
        List.mem_reverse.mpr (List.get_mem _ _ _)
      have hno := List.find?_eq_none.mp hfind _ hmem
      refine hno ?_
      simp only [decide_eq_true_eq]
      simpa using wellIndexed_get hw j hj
    | some a =>
      have hpa : a.index = j := by
        have := List.find?_some hfind
        simpa using this
      have hma : a ∈ slots := List.mem_reverse.mp (List.mem_of_find?_eq_some hfind)
      have := (wellIndexed_mem hw hma).2
      rw [hpa] at this
      exact this.symm
  · rw [List.get?_eq_none.mpr hj]
    apply List.find?_eq_none.mpr
    intro x hx
    have hxl := (wellIndexed_mem hw (List.mem_reverse.mp hx)).1
    simp only [decide_eq_true_eq]
    omega

theorem filledAt_iff {slots : List Slot} (hw : WellIndexed slots) (j : Nat) :
    filledAt slots j = true ↔
      ∃ sl ∈ slots, sl.index = j ∧ userTruthy sl.user = true := by
  unfold filledAt
  rw [lookupByIndex_wellIndexed hw]
  rcases Nat.lt_or_ge j slots.length with hj | hj
  · rw [List.get?_eq_get hj]
    constructor
    · intro h
      exact ⟨slots.get ⟨j, hj⟩, List.get_mem _ _ _, wellIndexed_get hw j hj, h⟩
    · rintro ⟨sl, hmem, hidx, htr⟩
      have h2 := (wellIndexed_mem hw hmem).2
      rw [hidx, List.get?_eq_get hj] at h2
      injection h2 with heq
      show userTruthy (slots.get ⟨j, hj⟩).user = true
      rw [heq]
      exact htr
  · rw [List.get?_eq_none.mpr hj]
    simp only [Bool.false_eq_true, false_iff]
    rintro ⟨sl, hmem, hidx, _⟩
    have := (wellIndexed_mem hw hmem).1
    omega

theorem scanDown_eq_none_iff (slots : List Slot) :
    ∀ i : Nat, scanDown slots i = none ↔ ∀ j, j ≤ i → filledAt slots j = false := by
  intro i
  induction i with
  | zero =>
    unfold scanDown
    split
    · rename_i h
      refine iff_of_false (by simp) fun hall => ?_
      simpa [h] using hall 0 (Nat.le_refl 0)
    · rename_i h
      refine iff_of_true rfl ?_
      intro j hj
      interval_cases j
      simpa using h
  | succ i ih =>
    unfold scanDown
    split
    · rename_i h
      refine iff_of_false (by simp) fun hall => ?_
      simpa [h] using hall (i + 1) (Nat.le_refl _)
    · rename_i h
      rw [ih]
      constructor
      · intro hall j hj
        rcases Nat.lt_or_ge j (i + 1) with hj' | hj'
        · exact hall j (by omega)
        · have : j = i + 1 := by omega
          subst this
          simpa using h
      · intro hall j hj
        exact hall j (by omega)

theorem scanUpAux_eq_none_iff (slots : List Slot) :
    ∀ (fuel i : Nat), scanUpAux slots fuel i = none ↔
      ∀ j, i ≤ j → j < i + fuel → filledAt slots j = false := by
  intro fuel
  induction fuel with
  | zero =>
    intro i
    refine iff_of_true rfl ?_
    intro j h1 h2
    omega
  | succ fuel ih =>
    intro i
    unfold scanUpAux
    split
    · rename_i h
      refine iff_of_false (by simp) fun hall => ?_
      simpa [h] using hall i (Nat.le_refl i) (by omega)
    · rename_i h
      rw [ih]
      constructor
      · intro hall j h1 h2
        rcases Nat.eq_or_lt_of_le h1 with rfl | h1'
        · simpa using h
        · exact hall j (by omega) (by omega)
      · intro hall j h1 h2
        exact hall j (by omega) (by omega)

theorem scanUp_eq_none_iff (slots : List Slot) (maxI i : Nat) :
    scanUp slots maxI i = none ↔
      ∀ j, i ≤ j → j ≤ maxI → filledAt slots j = false := by
  unfold scanUp
  rw [scanUpAux_eq_none_iff]
  constructor
  · intro hall j h1 h2
    exact hall j h1 (by omega)
  · intro hall j h1 h2
    exact hall j h1 (by omega)

theorem le_foldl_max :
    ∀ (l : List Nat) (acc : Nat), acc ≤ l.foldl max acc ∧ ∀ x ∈ l, x ≤ l.foldl max acc := by
  intro l
  induction l with
  | nil => intro acc; exact ⟨Nat.le_refl _, by simp⟩
  | cons y ys ih =>
    intro acc
    rcases ih (max acc y) with ⟨h1, h2⟩
    refine ⟨le_trans (Nat.le_max_left acc y) h1, ?_⟩
    intro x hx
    rcases List.mem_cons.mp hx with rfl | hx'
    · exact le_trans (Nat.le_max_right acc x) h1
    · exact h2 x hx'

theorem index_le_maxIndex {slots : List Slot} {x : Slot} (hx : x ∈ slots) :
    x.index ≤ maxIndex slots := by
  unfold maxIndex
  exact (le_foldl_max _ 0).2 x.index (List.mem_map_of_mem _ hx)

theorem createGroupWithBounds_lower {slots : List Slot} (hw : WellIndexed slots)
    (g : List (Nat × Nat)) (f : Nat × Nat) (hf : g.head? = some f) :
    ((createGroupWithBounds g slots).lowerBoundIndex = none ↔
      ¬ ∃ sl ∈ slots, userTruthy sl.user = true ∧ sl.index < f.1) := by
  unfold createGroupWithBounds
  simp only [hf, Option.map_some', Option.getD_some]
  cases hfst : f.1 with
  | zero =>
    refine iff_of_true rfl ?_
    rintro ⟨sl, _, _, hlt⟩
    omega
  | succ i =>
    rw [scanDown_eq_none_iff]
    constructor
    · intro hall
      rintro ⟨sl, hmem, htr, hlt⟩
      have hfill : filledAt slots sl.index = true :=
        (filledAt_iff hw sl.index).mpr ⟨sl, hmem, rfl, htr⟩
      have := hall sl.index (by omega)
      rw [this] at hfill
      exact absurd hfill (by simp)
    · intro hnone j hj
      cases hfj : filledAt slots j
      · rfl
      · exfalso
        rcases (filledAt_iff hw j).mp hfj with ⟨sl, hmem, hidx, htr⟩
        exact hnone ⟨sl, hmem, htr, by omega⟩

theorem createGroupWithBounds_upper {slots : List Slot} (hw : WellIndexed slots)
    (g : List (Nat × Nat)) (l : Nat × Nat) (hl : g.getLast? = some l) :
    ((createGroupWithBounds g slots).upperBoundIndex = none ↔
      ¬ ∃ sl ∈ slots, userTruthy sl.user = true ∧ l.1 < sl.index) := by
  unfold createGroupWithBounds
  simp only [hl, Option.map_some', Option.getD_some]
  rw [scanUp_eq_none_iff]
  constructor
  · intro hall
    rintro ⟨sl, hmem, htr, hlt⟩
    have hfill : filledAt slots sl.index = true :=
      (filledAt_iff hw sl.index).mpr ⟨sl, hmem, rfl, htr⟩
    have := hall sl.index (by omega) (index_le_maxIndex hmem)
    rw [this] at hfill
    exact absurd hfill (by simp)
  · intro hnone j hj _
    cases hfj : filledAt slots j
    · rfl
    · exfalso
      rcases (filledAt_iff hw j).mp hfj with ⟨sl, hmem, hidx, htr⟩
      exact hnone ⟨sl, hmem, htr, by omega⟩

theorem mem_groupRunsAux {allSlots : List Slot} :
    ∀ (ys cur : List (Nat × Nat)) (prev : Nat × Nat) (g : EmptySlotGroup),
      cur ≠ [] → g ∈ groupRunsAux allSlots cur prev ys →
      ∃ cur', cur' ≠ [] ∧ g = createGroupWithBounds cur' allSlots := by
  intro ys
  induction ys with
  | nil =>
    intro cur prev g hcur hg
    rcases List.mem_singleton.mp hg with rfl
    exact ⟨cur, hcur, rfl⟩
  | cons y ys ih =>
    intro cur prev g hcur hg
    unfold groupRunsAux at hg
    by_cases hy : y.1 = prev.1 + 1
    · rw [if_pos hy] at hg
      exact ih (cur ++ [y]) y g (by simp) hg
    · rw [if_neg hy] at hg
      rcases List.mem_cons.mp hg with rfl | hg'
      · exact ⟨cur, hcur, rfl⟩
      · exact ih [y] y g (by simp) hg'

/-- C6: (a) concatenating the member slots of all groups, in order, yields
exactly the `{index, length}` projections of the input slots without a
contributor, in their original relative order; (b) for every group and its
first/last member, the lower bound is null iff no filled slot has a smaller
position index, and the upper bound is null iff no filled slot has a larger
position index.  The hypothesis `WellIndexed slots` is the slot-collection
invariant (a slot's `index` is its board position), which every collection
the engine builds satisfies. -/
theorem c6_boundary_grouper (slots : List Slot) (hw : WellIndexed slots) :
    (((groupConsecutiveEmptySlots slots).map EmptySlotGroup.slots).flatten
        = emptySlotInfos slots)
    ∧ ∀ g ∈ groupConsecutiveEmptySlots slots,
        (∀ f ∈ g.slots.head?,
          (g.lowerBoundIndex = none ↔
            ¬ ∃ sl ∈ slots, userTruthy sl.user = true ∧ sl.index < f.1))
        ∧ (∀ l ∈ g.slots.getLast?,
          (g.upperBoundIndex = none ↔
            ¬ ∃ sl ∈ slots, userTruthy sl.user = true ∧ l.1 < sl.index)) := by
  constructor
  · unfold groupConsecutiveEmptySlots
    cases h : emptySlotInfos slots with
    | nil => simp
    | cons x xs =>
      rw [groupRunsAux_flatten]
      rfl
  · intro g hg
    have hform : ∃ cur', cur' ≠ [] ∧ g = createGroupWithBounds cur' slots := by
      unfold groupConsecutiveEmptySlots at hg
      cases h : emptySlotInfos slots with
      | nil => rw [h] at hg; cases hg
      | cons x xs =>
        rw [h] at hg
        exact mem_groupRunsAux xs [x] x g (by simp) hg
    rcases hform with ⟨cur', hne, rfl⟩
    rw [createGroupWithBounds_slots]
    constructor
    · intro f hf
      exact createGroupWithBounds_lower hw cur' f hf
    · intro l hl
      exact createGroupWithBounds_upper hw cur' l hl

/-- Witness for C6 on the sample board, at its first group. -/
theorem c6_witness :
    (((groupConsecutiveEmptySlots c6SampleSlots).map EmptySlotGroup.slots).flatten
        = emptySlotInfos c6SampleSlots)
    ∧ ((⟨[(1,4),(2,5)], some 0, some 3⟩ : EmptySlotGroup).lowerBoundIndex = none ↔
        ¬ ∃ sl ∈ c6SampleSlots, userTruthy sl.user = true ∧ sl.index < (1,4).1) := by
  have h := c6_boundary_grouper c6SampleSlots (by decide)
  refine ⟨h.1, ?_⟩
  exact ((h.2 ⟨[(1,4),(2,5)], some 0, some 3⟩ (by decide)).1 (1,4) (by decide))

/-- Witness for C5: the "trilby" inference instantiated concretely. -/
theorem c5_witness :
    (potentialHiddenLetters [['t','r','i','l','b','y']]
        [['t'],['l'],['r'],['i'],['s'],['m'],['?'],['b']]).count (['y'] : Str)
      = correctLettersFrequency [['t','r','i','l','b','y']] (['y'] : Str)
          - levelLettersFrequency [['t'],['l'],['r'],['i'],['s'],['m'],['?'],['b']]
              (['y'] : Str) :=
  c5_max_frequency_inference [['t','r','i','l','b','y']]
    [['t'],['l'],['r'],['i'],['s'],['m'],['?'],['b']] ['y']

/-- Witness for C7 at the word "cat" between the bounds "bat" and "dog". -/
theorem c7_witness :
    (wordFitsAlphabetically ['c','a','t'] none none = true)
    ∧ (wordFitsAlphabetically ['c','a','t'] (some ['c','a','t']) none = false)
    ∧ (wordFitsAlphabetically ['c','a','t'] none (some ['c','a','t']) = false)
    ∧ (wordFitsAlphabetically ['c','a','t'] (some ['b','a','t']) (some ['d','o','g']) = true ↔
        ((∀ l ∈ (some ['b','a','t'] : Option Str),
            lexCompareCh (toLowerStr ['c','a','t']) (toLowerStr l) = Ordering.gt)
         ∧ (∀ u ∈ (some ['d','o','g'] : Option Str),
            lexCompareCh (toLowerStr ['c','a','t']) (toLowerStr u) = Ordering.lt))) :=
  c7_alphabetical_filter ['c','a','t'] (some ['b','a','t']) (some ['d','o','g'])

/-- Witness for C8 after pushing an inferred word onto a two-word list. -/
theorem c8_witness :
    List.Pairwise specWordOrder
      (updateCorrectWordsDisplayed [['t','e','s','t'], ['a','b']] ['w','o','r','d','*'])
    ∧ List.Pairwise specWordOrder ([] : List Str) :=
  c8_correct_words_sorted [['t','e','s','t'], ['a','b']] ['w','o','r','d','*']
